import Mathlib

/-!
Verification of the PU-learning risk-estimator core of the `nnPU` repository
(`src/nnPU/loss.py` and the threshold / classification logic of
`src/nnPU/run_experiment.py`), as a shallow embedding.

Scalars are modelled by a linear ordered field `K` (instantiated at `ℚ` for
executable witnesses and at `ℝ` where the sigmoid surrogate is needed);
labels, which the code compares against the integers `1` and `-1`, are
modelled as `List ℤ`; the exceptions raised by the Python code become an
explicit `Except` error type.
-/

namespace NnPU

/-- Errors raised by the loss module.
`configurationError` models the `NotImplementedError("The class prior should
be in (0, 1)")` raised by `_PULoss.__init__`; `typeError` models the
`TypeError` Python raises when `0 < prior < 1` is evaluated on `prior = None`;
`invalidInputError` models the `assert x.shape == target.shape` failure in
`forward`. -/
inductive PUError where
  | configurationError
  | typeError
  | invalidInputError
  deriving DecidableEq, Repr

/-- The configuration stored by `_PULoss.__init__` after validation:
fields `prior`, `loss_func`, `gamma`, `beta`, `nnPU`, `single_sample` of the
Python instance (`positive = 1`, `unlabeled = -1` and `min_count = 1` are
hard-coded below as in the source). -/
structure PUParams (K : Type) where
  prior : K
  lossf : K → K
  gamma : K
  beta : K
  nnPU : Bool
  single_sample : Bool

/-- `_PULoss.__init__`: validates `0 < prior < 1` and stores the
configuration.  `prior = none` models passing Python `None`, on which the
chained comparison itself raises. -/
def PULoss.mk0 {K : Type} [LinearOrderedField K] (prior : Option K)
    (lossf : K → K) (gamma beta : K) (nnPU single_sample : Bool) :
    Except PUError (PUParams K) :=
  match prior with
  | none => .error .typeError
  | some p =>
      if 0 < p ∧ p < 1 then
        .ok ⟨p, lossf, gamma, beta, nnPU, single_sample⟩
      else
        .error .configurationError

/-- All the intermediate scalars of one `_PULoss.forward` call, named after
the local variables of the Python body. -/
structure PUResult (K : Type) where
  n_positive : K
  n_unlabeled : K
  n : K
  positive_risk : K
  negative_risk_c1_cc : K
  negative_risk_c1_ss : K
  negative_risk_c2 : K
  negative_risk : K
  loss : K
  deriving DecidableEq, Repr

/-- The numeric body of `_PULoss.forward` (lines 48-74 of `loss.py`),
translated statement by statement.  `positive` and `unlabeled` are the 0/1
masks `(target == 1).float()` and `(target == -1).float()`; sums of
mask-weighted vectors are `torch.sum(mask * y)`. -/
def forwardCore {K : Type} [LinearOrderedField K] (ps : PUParams K)
    (x : List K) (target : List ℤ) : PUResult K :=
  let positive : List K := target.map (fun t => if t = 1 then 1 else 0)
  let unlabeled : List K := target.map (fun t => if t = -1 then 1 else 0)
  let n_positive : K := max 1 positive.sum
  let n_unlabeled : K := max 1 unlabeled.sum
  let n : K := n_positive + n_unlabeled
  let y_positive : List K := x.map ps.lossf
  let y_unlabeled : List K := x.map (fun s => ps.lossf (-s))
  let positive_risk : K :=
    ps.prior * (List.zipWith (· * ·) positive y_positive).sum / n_positive
  let negative_risk_c1_cc : K :=
    (List.zipWith (· * ·) unlabeled y_unlabeled).sum / n_unlabeled
  let negative_risk_c1_ss : K := y_unlabeled.sum / n
  let negative_risk_c2 : K :=
    ps.prior * (List.zipWith (· * ·) positive y_unlabeled).sum / n_positive
  let negative_risk : K :=
    if ps.single_sample then negative_risk_c1_ss - negative_risk_c2
    else negative_risk_c1_cc - negative_risk_c2
  let loss : K :=
    if ps.nnPU = true ∧ negative_risk < -ps.beta then
      -ps.gamma * negative_risk
    else
      positive_risk + negative_risk
  ⟨n_positive, n_unlabeled, n, positive_risk, negative_risk_c1_cc,
    negative_risk_c1_ss, negative_risk_c2, negative_risk, loss⟩

/-- The five history lists held by a `_PULoss` instance
(`labeled_component_history`, … , `calculated_loss_history`). -/
structure PUState (K : Type) where
  labeled : List K
  whole_cc : List K
  whole_ss : List K
  pu_scar : List K
  calculated : List K
  deriving DecidableEq, Repr

/-- The fresh history of a newly constructed instance: five empty lists. -/
def PUState.init (K : Type) : PUState K := ⟨[], [], [], [], []⟩

/-- `_PULoss._save_history`: appends the five scalars of one call to the
instance's history lists. -/
def saveHistory {K : Type} (st : PUState K) (r : PUResult K) : PUState K :=
  ⟨st.labeled ++ [r.positive_risk],
    st.whole_cc ++ [r.negative_risk_c1_cc],
    st.whole_ss ++ [r.negative_risk_c1_ss],
    st.pu_scar ++ [r.negative_risk_c2],
    st.calculated ++ [r.loss]⟩

/-- `_PULoss.forward` as a state transformer: the shape assertion, the
numeric body, the history append, and the returned loss. -/
def forwardS {K : Type} [LinearOrderedField K] (ps : PUParams K)
    (st : PUState K) (x : List K) (target : List ℤ) :
    Except PUError (K × PUState K) :=
  if x.length = target.length then
    let r := forwardCore ps x target
    .ok (r.loss, saveHistory st r)
  else
    .error .invalidInputError

/-- Running `forward` over a sequence of batches, threading the history. -/
def runBatches {K : Type} [LinearOrderedField K] (ps : PUParams K)
    (st : PUState K) : List (List K × List ℤ) → Except PUError (PUState K)
  | [] => .ok st
  | b :: bs =>
      match forwardS ps st b.1 b.2 with
      | .ok (_, st') => runBatches ps st' bs
      | .error e => .error e

/-- The state of a `DRPUccLoss` instance after `__init__`: the validated
prior, the stored correction weight `alpha`, `gamma`, `beta`, and the convex
function pair `f`, `df`. -/
structure DRPUInst (K : Type) where
  prior : K
  alpha : K
  gamma : K
  beta : K
  f : K → K
  df : K → K

/-- `DRPUccLoss.__init__`: runs the base-class prior check
(`_PULoss.__init__`, which on `prior = None` raises when evaluating the
chained comparison), then sets `self.alpha = alpha` and overwrites it with
`self.prior` whenever `self.prior is not None` — which, after a successful
base check, it never is. -/
def DRPUmk {K : Type} [LinearOrderedField K] (prior : Option K) (alpha : K)
    (f df : K → K) (gamma beta : K) : Except PUError (DRPUInst K) :=
  match prior with
  | none => .error .typeError
  | some p =>
      if 0 < p ∧ p < 1 then
        let a0 := alpha
        let a1 := if (some p : Option K).isSome then p else a0
        .ok ⟨p, a1, gamma, beta, f, df⟩
      else
        .error .configurationError

/-- `torch.mean` over a vector: `none` models the NaN produced on an empty
input, otherwise the arithmetic mean. -/
def omean {K : Type} [LinearOrderedField K] (l : List K) : Option K :=
  if l.isEmpty then none else some (l.sum / l.length)

/-- `DRPUccLoss.forward` (lines 183-213 of `loss.py`): the shape assertion,
boolean-mask indexing `x[positive]` / `x[unlabeled]`, the dual
`f*(t) = t·df(t) − f(t)` and centered `f_nn(t) = f*(t) − f*(0·t)`,
the three means, the NaN-to-zero clamps on `E_n`, `E_pp`, `E_u`
(`none.getD 0`; NaN propagates through `E_u − α·E_pn`), and the final
branch on `E_n ≥ β`.  The diagnostic `print` calls are output-only. -/
def DRPUforward {K : Type} [LinearOrderedField K] (inst : DRPUInst K)
    (x : List K) (target : List ℤ) : Except PUError K :=
  if x.length = target.length then
    let y_positive : List K := ((x.zip target).filter (fun p => p.2 == 1)).map (·.1)
    let y_unlabeled : List K := ((x.zip target).filter (fun p => p.2 == -1)).map (·.1)
    let f_dual : K → K := fun t => t * inst.df t - inst.f t
    let f_nn : K → K := fun t => f_dual t - f_dual (0 * t)
    let E_pp : Option K :=
      omean (y_positive.map (fun t => -inst.df t + inst.alpha * f_nn t))
    let E_pn : Option K := omean (y_positive.map f_nn)
    let E_u : Option K := omean (y_unlabeled.map f_nn)
    let E_n : Option K :=
      match E_u, E_pn with
      | some u, some pn => some (u - inst.alpha * pn)
      | _, _ => none
    let E_n1 : K := E_n.getD 0
    let E_pp1 : K := E_pp.getD 0
    let E_u1 : K := E_u.getD 0
    if inst.beta ≤ E_n1 then
      .ok (E_pp1 + max 0 E_n1 + f_dual (0 * E_u1))
    else
      .ok (-inst.gamma * E_n1)
  else
    .error .invalidInputError

/-- `DRPUccLoss.forward` as a state transformer over the inherited history
lists: the method body contains no `_save_history` call and no append, so
the state passes through untouched. -/
def DRPUforwardS {K : Type} [LinearOrderedField K] (inst : DRPUInst K)
    (st : PUState K) (x : List K) (target : List ℤ) :
    Except PUError (K × PUState K) :=
  (DRPUforward inst x target).map (fun l => (l, st))

/-- The logistic sigmoid used by `run_experiment.py` to turn logits into
probabilities before thresholding (`torch.sigmoid`). -/
noncomputable def sigmoid (x : ℝ) : ℝ := 1 / (1 + Real.exp (-x))

/-- The decision threshold of `Experiment.test_on_new_data_with_new_pi`:
`tres = (pi / (1 - pi)) * ((1 - new_pi) / new_pi)`. -/
noncomputable def compute_threshold (train_prior new_prior : ℝ) : ℝ :=
  (train_prior / (1 - train_prior)) * ((1 - new_prior) / new_prior)

/-- The prediction rule used at test time:
`torch.where(sigmoid_output / (1 - sigmoid_output) < tres, -1, 1)`. -/
noncomputable def classify (scores : List ℝ) (tres : ℝ) : List ℤ :=
  scores.map (fun s => if sigmoid s / (1 - sigmoid s) < tres then -1 else 1)

/-- The default zero-threshold-on-raw-score rule: predict `+1` iff the logit
is nonnegative. -/
noncomputable def zeroRule (scores : List ℝ) : List ℤ :=
  scores.map (fun s => if 0 ≤ s then 1 else -1)

section MaskLemmas

variable {K : Type} [LinearOrderedField K]

/-- The sum of a 0/1 mask over the labels is the number of labels hitting
the mask's value. -/
lemma sum_mask_eq_count (tg : List ℤ) (c : ℤ) :
    ((tg.map (fun t => if t = c then (1 : K) else 0)).sum) =
      ((tg.filter (fun t => t == c)).length : K) := by
  induction tg with
  | nil => simp
  | cons t ts ih =>
      by_cases h : t = c <;> simp [h, ih, add_comm]

/-- A mask-weighted sum over a transformed score vector is the plain sum over
the matching (score, label) pairs. -/
lemma zipWith_mask_sum (x : List K) (tg : List ℤ) (c : ℤ) (g : K → K) :
    (List.zipWith (· * ·) (tg.map (fun t => if t = c then (1 : K) else 0))
        (x.map g)).sum =
      (((x.zip tg).filter (fun p => p.2 == c)).map (fun p => g p.1)).sum := by
  induction x generalizing tg with
  | nil => cases tg <;> simp
  | cons a xs ih =>
      cases tg with
      | nil => simp
      | cons t ts =>
          simp only [List.map_cons, List.zipWith_cons_cons, List.sum_cons,
            ih ts, List.zip_cons_cons, List.filter_cons]
          by_cases h : t = c <;> simp [h]

omit [LinearOrderedField K] in
/-- For equal-length vectors, filtering the zipped pairs by label counts the
same elements as filtering the labels. -/
lemma zip_filter_length (x : List K) (tg : List ℤ) (h : x.length = tg.length)
    (c : ℤ) :
    ((x.zip tg).filter (fun p => p.2 == c)).length =
      (tg.filter (fun t => t == c)).length := by
  induction x generalizing tg with
  | nil =>
      cases tg with
      | nil => simp
      | cons t ts => simp at h
  | cons a xs ih =>
      cases tg with
      | nil => simp at h
      | cons t ts =>
          simp only [List.length_cons, Nat.succ.injEq] at h
          by_cases hc : t = c <;> simp [hc, ih ts h]

omit [LinearOrderedField K] in
/-- With every label in `{+1, -1}`, the positive and unlabeled pair sets
partition the batch. -/
lemma filter_partition_length (x : List K) (tg : List ℤ)
    (h : x.length = tg.length) (hlab : ∀ t ∈ tg, t = 1 ∨ t = -1) :
    ((x.zip tg).filter (fun p => p.2 == 1)).length +
      ((x.zip tg).filter (fun p => p.2 == -1)).length = x.length := by
  induction x generalizing tg with
  | nil =>
      cases tg with
      | nil => simp
      | cons t ts => simp at h
  | cons a xs ih =>
      cases tg with
      | nil => simp at h
      | cons t ts =>
          simp only [List.length_cons, Nat.succ.injEq] at h
          have ht : t = 1 ∨ t = -1 := hlab t (List.mem_cons_self t ts)
          have hts : ∀ u ∈ ts, u = 1 ∨ u = -1 :=
            fun u hu => hlab u (List.mem_cons_of_mem t hu)
          have hih := ih ts h hts
          rcases ht with h1 | h1 <;> simp [h1] <;> omega

/-- A mask-weighted sum vanishes when no label hits the mask's value. -/
lemma zipWith_mask_sum_zero (x : List K) (tg : List ℤ) (c : ℤ) (g : K → K)
    (h : ∀ t ∈ tg, t ≠ c) :
    (List.zipWith (· * ·) (tg.map (fun t => if t = c then (1 : K) else 0))
        (x.map g)).sum = 0 := by
  rw [zipWith_mask_sum]
  have : (x.zip tg).filter (fun p => p.2 == c) = [] := by
    refine List.filter_eq_nil_iff.mpr (fun p hp => ?_)
    have := List.of_mem_zip hp
    simpa using h p.2 this.2
  simp [this]

end MaskLemmas

/-- C1: for equal-length score and label vectors with every label in
`{+1, -1}`, `_PULoss.forward` partitions the indices into P (label `+1`) and
U (label `-1`), sets `n_P = max 1 |P|`, `n_U = max 1 |U|`, `n = n_P + n_U`,
and computes `R_P⁺ = prior·(Σ_P ℓ(score))/n_P`,
`R_U⁻(cc) = (Σ_U ℓ(−score))/n_U`, `R_U⁻(ss) = (Σ_batch ℓ(−score))/n`,
`R_P⁻ = prior·(Σ_P ℓ(−score))/n_P`, and
`R⁻ = (cc or ss according to single_sample) − R_P⁻`. -/
theorem C1_risk_decomposition {K : Type} [LinearOrderedField K]
    (ps : PUParams K) (x : List K) (target : List ℤ)
    (hlen : x.length = target.length)
    (hlab : ∀ t ∈ target, t = 1 ∨ t = -1) :
    ((x.zip target).filter (fun p => p.2 == 1)).length +
        ((x.zip target).filter (fun p => p.2 == -1)).length = x.length ∧
    (forwardCore ps x target).n_positive =
        max 1 ((((x.zip target).filter (fun p => p.2 == 1)).length : K)) ∧
    (forwardCore ps x target).n_unlabeled =
        max 1 ((((x.zip target).filter (fun p => p.2 == -1)).length : K)) ∧
    (forwardCore ps x target).n =
        (forwardCore ps x target).n_positive +
          (forwardCore ps x target).n_unlabeled ∧
    (forwardCore ps x target).positive_risk =
        ps.prior *
            (((x.zip target).filter (fun p => p.2 == 1)).map
                (fun p => ps.lossf p.1)).sum /
          (forwardCore ps x target).n_positive ∧
    (forwardCore ps x target).negative_risk_c1_cc =
        (((x.zip target).filter (fun p => p.2 == -1)).map
            (fun p => ps.lossf (-p.1))).sum /
          (forwardCore ps x target).n_unlabeled ∧
    (forwardCore ps x target).negative_risk_c1_ss =
        (x.map (fun s => ps.lossf (-s))).sum / (forwardCore ps x target).n ∧
    (forwardCore ps x target).negative_risk_c2 =
        ps.prior *
            (((x.zip target).filter (fun p => p.2 == 1)).map
                (fun p => ps.lossf (-p.1))).sum /
          (forwardCore ps x target).n_positive ∧
    (forwardCore ps x target).negative_risk =
        (if ps.single_sample then (forwardCore ps x target).negative_risk_c1_ss
          else (forwardCore ps x target).negative_risk_c1_cc) -
          (forwardCore ps x target).negative_risk_c2 := by
  refine ⟨filter_partition_length x target hlen hlab, ?_, ?_, ?_, ?_, ?_, ?_,
    ?_, ?_⟩
  · simp only [forwardCore]
    rw [sum_mask_eq_count, zip_filter_length x target hlen 1]
  · simp only [forwardCore]
    rw [sum_mask_eq_count, zip_filter_length x target hlen (-1)]
  · simp only [forwardCore]
  · simp only [forwardCore]
    rw [zipWith_mask_sum]
  · simp only [forwardCore]
    rw [zipWith_mask_sum]
  · simp only [forwardCore]
  · simp only [forwardCore]
    rw [zipWith_mask_sum]
  · simp only [forwardCore]
    by_cases hss : ps.single_sample <;> simp [hss]

/-- Witness for C1 at a concrete batch over `ℚ`. -/
theorem C1_risk_decomposition_witness :
    ([(2 : ℚ), -1, 1/2].length = [(1 : ℤ), 1, -1].length) ∧
    (forwardCore (K := ℚ) ⟨2/5, (fun s => 1 - s), 1, 0, true, false⟩
        [2, -1, 1/2] [1, 1, -1]).positive_risk =
      (2/5 : ℚ) *
          ((([(2 : ℚ), -1, 1/2].zip [(1 : ℤ), 1, -1]).filter
              (fun p => p.2 == 1)).map (fun p => (1 : ℚ) - p.1)).sum /
        (forwardCore (K := ℚ) ⟨2/5, (fun s => 1 - s), 1, 0, true, false⟩
            [2, -1, 1/2] [1, 1, -1]).n_positive :=
  ⟨by decide,
    (C1_risk_decomposition ⟨2/5, (fun s => 1 - s), 1, 0, true, false⟩
        [2, -1, 1/2] [1, 1, -1] (by decide) (by decide)).2.2.2.2.1⟩

/-- C2: in nnPU mode, the loss is the rewind term `-γ·R⁻` when `R⁻ < -β`
(and then, for nonnegative `γ` and `β`, it is at least `γ·β ≥ 0`); otherwise,
and always in uPU mode, the loss is `R_P⁺ + R⁻`. -/
theorem C2_nnPU_branch {K : Type} [LinearOrderedField K] (ps : PUParams K)
    (x : List K) (target : List ℤ) :
    ((ps.nnPU = true ∧ (forwardCore ps x target).negative_risk < -ps.beta) →
      (forwardCore ps x target).loss =
          -ps.gamma * (forwardCore ps x target).negative_risk ∧
        (0 ≤ ps.gamma → 0 ≤ ps.beta →
          ps.gamma * ps.beta ≤ (forwardCore ps x target).loss ∧
            0 ≤ ps.gamma * ps.beta)) ∧
    ((ps.nnPU = false ∨ ¬(forwardCore ps x target).negative_risk < -ps.beta) →
      (forwardCore ps x target).loss =
        (forwardCore ps x target).positive_risk +
          (forwardCore ps x target).negative_risk) := by
  have hloss : (forwardCore ps x target).loss =
      if ps.nnPU = true ∧ (forwardCore ps x target).negative_risk < -ps.beta
      then -ps.gamma * (forwardCore ps x target).negative_risk
      else (forwardCore ps x target).positive_risk +
        (forwardCore ps x target).negative_risk := rfl
  constructor
  · rintro ⟨hnn, hlt⟩
    rw [hloss, if_pos ⟨hnn, hlt⟩]
    refine ⟨rfl, fun hg hb => ⟨?_, mul_nonneg hg hb⟩⟩
    have h1 : ps.beta ≤ -(forwardCore ps x target).negative_risk := by
      linarith
    calc ps.gamma * ps.beta
        ≤ ps.gamma * -(forwardCore ps x target).negative_risk :=
          mul_le_mul_of_nonneg_left h1 hg
      _ = -ps.gamma * (forwardCore ps x target).negative_risk := by ring
  · intro h
    rw [hloss, if_neg]
    rcases h with h | h
    · rintro ⟨hnn, -⟩
      rw [h] at hnn
      exact Bool.false_ne_true hnn
    · rintro ⟨-, hlt⟩
      exact h hlt

/-- Witness for C2 over `ℚ` with an all-positive batch, for which the nnPU
rewind branch fires. -/
theorem C2_nnPU_branch_witness :
    (forwardCore (K := ℚ) ⟨1/2, fun _ => 1, 1, 0, true, false⟩ [0]
          [1]).loss =
        -1 * (forwardCore (K := ℚ) ⟨1/2, fun _ => 1, 1, 0, true, false⟩ [0]
          [1]).negative_risk ∧
      ((1 : ℚ) * 0 ≤ (forwardCore (K := ℚ) ⟨1/2, fun _ => 1, 1, 0, true,
          false⟩ [0] [1]).loss ∧ 0 ≤ (1 : ℚ) * 0) := by
  have h := (C2_nnPU_branch (K := ℚ) ⟨1/2, fun _ => 1, 1, 0, true, false⟩
    [0] [1]).1 ⟨rfl, by norm_num [forwardCore]⟩
  exact ⟨h.1, h.2 (by norm_num) (by norm_num)⟩

/-- C7: on a batch with no positive label, `n_P` is floored to `1` and both
`R_P⁺` and `R_P⁻` evaluate to exactly `0` (the computation is total: no
division error). -/
theorem C7_empty_positive_partition {K : Type} [LinearOrderedField K]
    (ps : PUParams K) (x : List K) (target : List ℤ)
    (hP : ∀ t ∈ target, t ≠ 1) :
    (forwardCore ps x target).n_positive = 1 ∧
      (forwardCore ps x target).positive_risk = 0 ∧
      (forwardCore ps x target).negative_risk_c2 = 0 := by
  have hc : target.filter (fun t => t == 1) = [] :=
    List.filter_eq_nil_iff.mpr (fun t ht => by simpa using hP t ht)
  refine ⟨?_, ?_, ?_⟩
  · simp only [forwardCore]
    rw [sum_mask_eq_count, hc]
    norm_num
  · simp only [forwardCore]
    rw [zipWith_mask_sum_zero x target 1 ps.lossf hP]
    simp
  · simp only [forwardCore]
    rw [zipWith_mask_sum_zero x target 1 (fun s => ps.lossf (-s)) hP]
    simp

/-- Witness for C7 at a concrete all-unlabeled batch over `ℚ`. -/
theorem C7_empty_positive_partition_witness :
    (forwardCore (K := ℚ) ⟨1/2, fun s => s, 1, 0, true, false⟩ [3, -2]
          [-1, -1]).n_positive = 1 ∧
      (forwardCore (K := ℚ) ⟨1/2, fun s => s, 1, 0, true, false⟩ [3, -2]
          [-1, -1]).positive_risk = 0 ∧
      (forwardCore (K := ℚ) ⟨1/2, fun s => s, 1, 0, true, false⟩ [3, -2]
          [-1, -1]).negative_risk_c2 = 0 :=
  C7_empty_positive_partition ⟨1/2, fun s => s, 1, 0, true, false⟩ [3, -2]
    [-1, -1] (by decide)

/-- `extendsBy a b k`: the series `b` is the series `a` with exactly `k`
values appended — it is `k` longer and its first `a.length` entries are
unchanged. -/
def extendsBy {α : Type} (a b : List α) (k : ℕ) : Prop :=
  b.length = a.length + k ∧ b.take a.length = a

lemma extendsBy_append {α : Type} (a : List α) (v : α) :
    extendsBy a (a ++ [v]) 1 :=
  ⟨by simp, List.take_left a [v]⟩

lemma extendsBy_refl {α : Type} (a : List α) : extendsBy a a 0 :=
  ⟨by simp, List.take_length a⟩

lemma extendsBy_trans {α : Type} {a b c : List α} {j k : ℕ}
    (h1 : extendsBy a b j) (h2 : extendsBy b c k) : extendsBy a c (j + k) := by
  obtain ⟨h1l, h1t⟩ := h1
  obtain ⟨h2l, h2t⟩ := h2
  refine ⟨by omega, ?_⟩
  have hab : a.length ≤ b.length := by omega
  have h3 : c.take a.length = (c.take b.length).take a.length := by
    rw [List.take_take, min_eq_left hab]
  rw [h3, h2t, h1t]

/-- One successful `forward` call appends exactly one value to each of the
five history series. -/
lemma forwardS_history_step {K : Type} [LinearOrderedField K]
    {ps : PUParams K} {st : PUState K} {x : List K} {target : List ℤ}
    {l : K} {st' : PUState K} (h : forwardS ps st x target = .ok (l, st')) :
    extendsBy st.labeled st'.labeled 1 ∧
      extendsBy st.whole_cc st'.whole_cc 1 ∧
      extendsBy st.whole_ss st'.whole_ss 1 ∧
      extendsBy st.pu_scar st'.pu_scar 1 ∧
      extendsBy st.calculated st'.calculated 1 := by
  unfold forwardS at h
  by_cases hlen : x.length = target.length
  · rw [if_pos hlen] at h
    have hst : st' = saveHistory st (forwardCore ps x target) :=
      ((Prod.mk.injEq _ _ _ _).mp (Except.ok.inj h)).2.symm
    subst hst
    exact ⟨extendsBy_append _ _, extendsBy_append _ _, extendsBy_append _ _,
      extendsBy_append _ _, extendsBy_append _ _⟩
  · rw [if_neg hlen] at h
    exact absurd h (by simp)

/-- Running a sequence of successful `forward` calls appends one value per
call to each series and preserves all earlier entries. -/
lemma runBatches_history {K : Type} [LinearOrderedField K]
    (ps : PUParams K) (batches : List (List K × List ℤ)) (st st' : PUState K)
    (h : runBatches ps st batches = .ok st') :
    extendsBy st.labeled st'.labeled batches.length ∧
      extendsBy st.whole_cc st'.whole_cc batches.length ∧
      extendsBy st.whole_ss st'.whole_ss batches.length ∧
      extendsBy st.pu_scar st'.pu_scar batches.length ∧
      extendsBy st.calculated st'.calculated batches.length := by
  induction batches generalizing st with
  | nil =>
      have hst : st = st' := by
        rw [runBatches] at h
        exact Except.ok.inj h
      subst hst
      exact ⟨extendsBy_refl _, extendsBy_refl _, extendsBy_refl _,
        extendsBy_refl _, extendsBy_refl _⟩
  | cons b bs ih =>
      rw [runBatches] at h
      rcases hF : forwardS ps st b.1 b.2 with e | p
      · rw [hF] at h
        exact absurd h (by simp)
      · rw [hF] at h
        obtain ⟨l, st1⟩ := p
        have hstep := forwardS_history_step hF
        have htail := ih st1 h
        simp only [List.length_cons]
        have hone : ∀ m : ℕ, 1 + m = m + 1 := fun m => Nat.add_comm 1 m
        exact ⟨hone bs.length ▸ extendsBy_trans hstep.1 htail.1,
          hone bs.length ▸ extendsBy_trans hstep.2.1 htail.2.1,
          hone bs.length ▸ extendsBy_trans hstep.2.2.1 htail.2.2.1,
          hone bs.length ▸ extendsBy_trans hstep.2.2.2.1 htail.2.2.2.1,
          hone bs.length ▸ extendsBy_trans hstep.2.2.2.2 htail.2.2.2.2⟩

/-- C8: every successful `_PULoss.forward` call appends exactly one value to
each of the five history series, whatever loss branch is taken, and never
disturbs previously recorded entries; hence after `k` successful calls each
series is `k` entries longer and its old entries are intact. -/
theorem C8_history_monotone {K : Type} [LinearOrderedField K] :
    (∀ (ps : PUParams K) (st : PUState K) (x : List K) (target : List ℤ)
        (l : K) (st' : PUState K), forwardS ps st x target = .ok (l, st') →
      extendsBy st.labeled st'.labeled 1 ∧
        extendsBy st.whole_cc st'.whole_cc 1 ∧
        extendsBy st.whole_ss st'.whole_ss 1 ∧
        extendsBy st.pu_scar st'.pu_scar 1 ∧
        extendsBy st.calculated st'.calculated 1) ∧
    (∀ (ps : PUParams K) (batches : List (List K × List ℤ))
        (st' : PUState K), runBatches ps (PUState.init K) batches = .ok st' →
      st'.labeled.length = batches.length ∧
        st'.whole_cc.length = batches.length ∧
        st'.whole_ss.length = batches.length ∧
        st'.pu_scar.length = batches.length ∧
        st'.calculated.length = batches.length) := by
  refine ⟨fun ps st x target l st' h => forwardS_history_step h,
    fun ps batches st' h => ?_⟩
  have hr := runBatches_history ps batches (PUState.init K) st' h
  exact ⟨by simpa [PUState.init] using hr.1.1,
    by simpa [PUState.init] using hr.2.1.1,
    by simpa [PUState.init] using hr.2.2.1.1,
    by simpa [PUState.init] using hr.2.2.2.1.1,
    by simpa [PUState.init] using hr.2.2.2.2.1⟩

/-- Witness for C8: two concrete batches over `ℚ`, run from a fresh history,
leave every series of length two. -/
theorem C8_history_monotone_witness :
    ∃ st' : PUState ℚ,
      runBatches ⟨1/2, fun s => s, 1, 0, true, false⟩ (PUState.init ℚ)
          [([1, -2], [1, -1]), ([0], [-1])] = .ok st' ∧
        st'.labeled.length = 2 ∧ st'.whole_cc.length = 2 ∧
        st'.whole_ss.length = 2 ∧ st'.pu_scar.length = 2 ∧
        st'.calculated.length = 2 := by
  refine ⟨_, rfl, ?_⟩
  have h := (C8_history_monotone (K := ℚ)).2
    ⟨1/2, fun s => s, 1, 0, true, false⟩ [([1, -2], [1, -1]), ([0], [-1])]
    _ rfl
  simpa using h

/-- C5: construction fails with the configuration error exactly when the
prior is outside the open interval `(0, 1)` (for the sigmoid family and the
DRPU variant alike), and `forward` fails with the invalid-input error exactly
when the score and label vectors differ in length; `Except` propagates the
error, so no result is produced. -/
theorem C5_error_conditions {K : Type} [LinearOrderedField K] :
    (∀ (p : K) (lossf : K → K) (gamma beta : K) (nn ss : Bool),
      PULoss.mk0 (some p) lossf gamma beta nn ss =
          .error .configurationError ↔ ¬(0 < p ∧ p < 1)) ∧
    (∀ (p : K) (lossf : K → K) (gamma beta : K) (nn ss : Bool),
      (∃ ps, PULoss.mk0 (some p) lossf gamma beta nn ss = .ok ps) ↔
        (0 < p ∧ p < 1)) ∧
    (∀ (p alpha : K) (f df : K → K) (gamma beta : K),
      DRPUmk (some p) alpha f df gamma beta =
          .error .configurationError ↔ ¬(0 < p ∧ p < 1)) ∧
    (∀ (ps : PUParams K) (st : PUState K) (x : List K) (target : List ℤ),
      forwardS ps st x target = .error .invalidInputError ↔
        x.length ≠ target.length) ∧
    (∀ (inst : DRPUInst K) (x : List K) (target : List ℤ),
      DRPUforward inst x target = .error .invalidInputError ↔
        x.length ≠ target.length) := by
  refine ⟨fun p lossf gamma beta nn ss => ?_, fun p lossf gamma beta nn ss => ?_,
    fun p alpha f df gamma beta => ?_, fun ps st x target => ?_,
    fun inst x target => ?_⟩
  · by_cases h : 0 < p ∧ p < 1 <;> simp [PULoss.mk0, h]
  · by_cases h : 0 < p ∧ p < 1 <;> simp [PULoss.mk0, h]
  · by_cases h : 0 < p ∧ p < 1 <;> simp [DRPUmk, h]
  · by_cases h : x.length = target.length <;> simp [forwardS, h]
  · by_cases h : x.length = target.length
    · simp only [DRPUforward, if_pos h]
      constructor
      · intro heq
        split at heq <;> simp at heq
      · intro hne
        exact absurd h hne
    · simp [DRPUforward, h]

/-- Witness for C5: a prior of `2` is rejected at construction and a length
mismatch is rejected by `forward`, over `ℚ`. -/
theorem C5_error_conditions_witness :
    PULoss.mk0 (some (2 : ℚ)) (fun s => s) 1 0 true false =
        .error .configurationError ∧
      forwardS (K := ℚ) ⟨1/2, fun s => s, 1, 0, true, false⟩ (PUState.init ℚ)
          [0] [] = .error .invalidInputError :=
  ⟨((C5_error_conditions (K := ℚ)).1 2 (fun s => s) 1 0 true false).mpr
      (by norm_num),
    ((C5_error_conditions (K := ℚ)).2.2.2.1 ⟨1/2, fun s => s, 1, 0, true,
        false⟩ (PUState.init ℚ) [0] []).mpr (by decide)⟩

/-- C10: the `alpha` argument of `DRPUccLoss.__init__` is irrelevant — the
constructor's result is the same function of the other arguments for any two
values of `alpha`, and every successfully constructed instance stores
`alpha = prior` (a `None` prior fails the base-class check, so the branch
keeping the caller-supplied `alpha` is unreachable). -/
theorem C10_alpha_overwritten {K : Type} [LinearOrderedField K] :
    (∀ (prior : Option K) (a a' : K) (f df : K → K) (gamma beta : K),
      DRPUmk prior a f df gamma beta = DRPUmk prior a' f df gamma beta) ∧
    (∀ (prior : Option K) (a : K) (f df : K → K) (gamma beta : K)
        (i : DRPUInst K),
      DRPUmk prior a f df gamma beta = .ok i → i.alpha = i.prior) := by
  constructor
  · intro prior a a' f df gamma beta
    cases prior with
    | none => rfl
    | some p => by_cases h : 0 < p ∧ p < 1 <;> simp [DRPUmk, h]
  · intro prior a f df gamma beta i h
    cases prior with
    | none => exact absurd h (by simp [DRPUmk])
    | some p =>
        by_cases hp : 0 < p ∧ p < 1
        · simp only [DRPUmk, if_pos hp, Option.isSome_some, if_true] at h
          obtain rfl := Except.ok.inj h
          rfl
        · exact absurd h (by simp [DRPUmk, hp])

/-- Witness for C10: two different `alpha` arguments give the same instance,
which stores the prior as its correction weight. -/
theorem C10_alpha_overwritten_witness :
    DRPUmk (some (1/2 : ℚ)) 7 (fun t => (t - 1)^2 / 2) (fun t => t - 1) 1 0 =
        DRPUmk (some (1/2 : ℚ)) 9 (fun t => (t - 1)^2 / 2) (fun t => t - 1)
          1 0 ∧
      (DRPUInst.alpha (K := ℚ) ⟨1/2, 1/2, 1, 0, fun t => (t - 1)^2 / 2,
          fun t => t - 1⟩) =
        (DRPUInst.prior (K := ℚ) ⟨1/2, 1/2, 1, 0, fun t => (t - 1)^2 / 2,
          fun t => t - 1⟩) :=
  ⟨(C10_alpha_overwritten (K := ℚ)).1 (some (1/2)) 7 9 (fun t => (t - 1)^2 / 2)
      (fun t => t - 1) 1 0,
    (C10_alpha_overwritten (K := ℚ)).2 (some (1/2)) 7 (fun t => (t - 1)^2 / 2)
      (fun t => t - 1) 1 0 ⟨1/2, 1/2, 1, 0, fun t => (t - 1)^2 / 2,
        fun t => t - 1⟩ (by norm_num [DRPUmk])⟩

/-- The mean of a transformed vector: NaN exactly on the empty vector,
otherwise the sum over the count. -/
lemma omean_map_emptiness {K : Type} [LinearOrderedField K] (g : K → K)
    (l : List K) :
    omean (l.map g) =
      if l = [] then none else some ((l.map g).sum / (l.length : K)) := by
  cases l <;> simp [omean]

/-- C4: `DRPUccLoss.forward` on equal-length vectors computes, with
`f*(t) = t·df(t) − f(t)` and `f_c(t) = f*(t) − f*(0)`,
`E_pp = mean over positives of (−df + α·f_c)`, `E_u = mean over unlabeled of
f_c`, `E_n = E_u − α·(mean over positives of f_c)`; a NaN `E_pp`, `E_u` or
`E_n` (from an empty partition) is replaced by `0`; the loss is
`E_pp + max 0 E_n + f*(0)` when `E_n ≥ β` and `−γ·E_n` otherwise; and the
call appends nothing to the history lists. -/
theorem C4_DRPU_forward {K : Type} [LinearOrderedField K] (inst : DRPUInst K)
    (st : PUState K) (x : List K) (target : List ℤ)
    (hlen : x.length = target.length)
    (P U : List K) (fstar fc : K → K) (Epp En : K)
    (hP : P = ((x.zip target).filter (fun p => p.2 == 1)).map (fun p => p.1))
    (hU : U = ((x.zip target).filter (fun p => p.2 == -1)).map (fun p => p.1))
    (hfstar : fstar = fun t => t * inst.df t - inst.f t)
    (hfc : fc = fun t => fstar t - fstar 0)
    (hEpp : Epp = if P = [] then 0 else
      (P.map (fun t => -inst.df t + inst.alpha * fc t)).sum / (P.length : K))
    (hEn : En = if P = [] ∨ U = [] then 0 else
      (U.map fc).sum / (U.length : K) -
        inst.alpha * ((P.map fc).sum / (P.length : K))) :
    DRPUforward inst x target =
        .ok (if inst.beta ≤ En then Epp + max 0 En + fstar 0
          else -inst.gamma * En) ∧
      DRPUforwardS inst st x target =
        .ok ((if inst.beta ≤ En then Epp + max 0 En + fstar 0
          else -inst.gamma * En), st) := by
  subst hP hU hfstar hfc hEpp hEn
  have hmain : DRPUforward inst x target =
      .ok (if inst.beta ≤
            (if ((x.zip target).filter (fun p => p.2 == 1)).map
                  (fun p => p.1) = [] ∨
                ((x.zip target).filter (fun p => p.2 == -1)).map
                  (fun p => p.1) = [] then 0 else
              ((((x.zip target).filter (fun p => p.2 == -1)).map
                    (fun p => p.1)).map (fun t =>
                  (fun t => t * inst.df t - inst.f t) t -
                    (fun t => t * inst.df t - inst.f t) 0)).sum /
                  ((((x.zip target).filter (fun p => p.2 == -1)).map
                    (fun p => p.1)).length : K) -
                inst.alpha * (((((x.zip target).filter
                    (fun p => p.2 == 1)).map (fun p => p.1)).map (fun t =>
                  (fun t => t * inst.df t - inst.f t) t -
                    (fun t => t * inst.df t - inst.f t) 0)).sum /
                  ((((x.zip target).filter (fun p => p.2 == 1)).map
                    (fun p => p.1)).length : K)))
          then (if ((x.zip target).filter (fun p => p.2 == 1)).map
                  (fun p => p.1) = [] then 0 else
              ((((x.zip target).filter (fun p => p.2 == 1)).map
                    (fun p => p.1)).map (fun t => -inst.df t + inst.alpha *
                  ((fun t => t * inst.df t - inst.f t) t -
                    (fun t => t * inst.df t - inst.f t) 0))).sum /
                ((((x.zip target).filter (fun p => p.2 == 1)).map
                  (fun p => p.1)).length : K)) +
            max 0 (if ((x.zip target).filter (fun p => p.2 == 1)).map
                  (fun p => p.1) = [] ∨
                ((x.zip target).filter (fun p => p.2 == -1)).map
                  (fun p => p.1) = [] then 0 else
              ((((x.zip target).filter (fun p => p.2 == -1)).map
                    (fun p => p.1)).map (fun t =>
                  (fun t => t * inst.df t - inst.f t) t -
                    (fun t => t * inst.df t - inst.f t) 0)).sum /
                  ((((x.zip target).filter (fun p => p.2 == -1)).map
                    (fun p => p.1)).length : K) -
                inst.alpha * (((((x.zip target).filter
                    (fun p => p.2 == 1)).map (fun p => p.1)).map (fun t =>
                  (fun t => t * inst.df t - inst.f t) t -
                    (fun t => t * inst.df t - inst.f t) 0)).sum /
                  ((((x.zip target).filter (fun p => p.2 == 1)).map
                    (fun p => p.1)).length : K))) +
            (fun t => t * inst.df t - inst.f t) 0
          else -inst.gamma *
            (if ((x.zip target).filter (fun p => p.2 == 1)).map
                  (fun p => p.1) = [] ∨
                ((x.zip target).filter (fun p => p.2 == -1)).map
                  (fun p => p.1) = [] then 0 else
              ((((x.zip target).filter (fun p => p.2 == -1)).map
                    (fun p => p.1)).map (fun t =>
                  (fun t => t * inst.df t - inst.f t) t -
                    (fun t => t * inst.df t - inst.f t) 0)).sum /
                  ((((x.zip target).filter (fun p => p.2 == -1)).map
                    (fun p => p.1)).length : K) -
                inst.alpha * (((((x.zip target).filter
                    (fun p => p.2 == 1)).map (fun p => p.1)).map (fun t =>
                  (fun t => t * inst.df t - inst.f t) t -
                    (fun t => t * inst.df t - inst.f t) 0)).sum /
                  ((((x.zip target).filter (fun p => p.2 == 1)).map
                    (fun p => p.1)).length : K)))) := by
    simp only [DRPUforward, if_pos hlen, zero_mul]
    rw [omean_map_emptiness, omean_map_emptiness, omean_map_emptiness]
    by_cases hp : ((x.zip target).filter (fun p => p.2 == 1)).map
        (fun p => p.1) = (([] : List K)) <;>
      by_cases hu : ((x.zip target).filter (fun p => p.2 == -1)).map
          (fun p => p.1) = (([] : List K))
    all_goals simp [hp, hu]
    all_goals split <;> rfl
  exact ⟨hmain, by
    unfold DRPUforwardS
    rw [hmain]
    rfl⟩

/-- Witness for C4: a concrete batch over `ℚ` with the default squared-loss
pair, one positive and one unlabeled example. -/
theorem C4_DRPU_forward_witness :
    DRPUforward (K := ℚ) ⟨1/2, 1/2, 1, 0, fun t => (t - 1)^2 / 2,
        fun t => t - 1⟩ [2, 0] [1, -1] =
      .ok (if (0 : ℚ) ≤ -1 then
          0 + max 0 (-1) + (fun t : ℚ => t * (t - 1) - (t - 1)^2 / 2) 0
        else -(1 : ℚ) * -1) :=
  (C4_DRPU_forward ⟨1/2, 1/2, 1, 0, fun t => (t - 1)^2 / 2, fun t => t - 1⟩
    (PUState.init ℚ) [2, 0] [1, -1] rfl [2] [0]
    (fun t => t * (t - 1) - (t - 1)^2 / 2)
    (fun t : ℚ => (t * (t - 1) - (t - 1)^2 / 2) -
      (0 * (0 - 1) - (0 - 1)^2 / 2)) 0 (-1)
    rfl rfl rfl rfl (by norm_num) (by norm_num)).1

/-- Mapping the first projection over zipped pairs recovers the mapped score
vector when the label vector is at least as long. -/
lemma zip_map_fst {K : Type} (x : List K) (tg : List ℤ)
    (h : x.length = tg.length) (g : K → K) :
    (x.zip tg).map (fun p => g p.1) = x.map g := by
  induction x generalizing tg with
  | nil => simp
  | cons a xs ih =>
      cases tg with
      | nil => simp at h
      | cons t ts =>
          simp only [List.length_cons, Nat.succ.injEq] at h
          simp [ih ts h]

/-- On an all-positive batch, `forward` reduces to an explicit closed form:
`n_P = |x|`, `n_U = 1`, the cc unlabeled term is `0`, and the negative risk
is `-R_P⁻`. -/
lemma forwardCore_all_positive {K : Type} [LinearOrderedField K]
    (pr gamma beta : K) (lf : K → K) (nn : Bool) (x : List K)
    (target : List ℤ) (hlen : x.length = target.length)
    (hlab : ∀ t ∈ target, t = 1) (hne : x ≠ []) :
    forwardCore ⟨pr, lf, gamma, beta, nn, false⟩ x target =
      ⟨(x.length : K), 1, (x.length : K) + 1,
        pr * (x.map lf).sum / (x.length : K), 0,
        (x.map (fun s => lf (-s))).sum / ((x.length : K) + 1),
        pr * (x.map (fun s => lf (-s))).sum / (x.length : K),
        -(pr * (x.map (fun s => lf (-s))).sum / (x.length : K)),
        if nn = true ∧
            -(pr * (x.map (fun s => lf (-s))).sum / (x.length : K)) < -beta
        then -gamma *
          -(pr * (x.map (fun s => lf (-s))).sum / (x.length : K))
        else pr * (x.map lf).sum / (x.length : K) +
          -(pr * (x.map (fun s => lf (-s))).sum / (x.length : K))⟩ := by
  have htg : ∀ t ∈ target, t ≠ -1 := fun t ht => by
    rw [hlab t ht]
    decide
  have hfilter1 : (x.zip target).filter (fun p => p.2 == 1) = x.zip target :=
    List.filter_eq_self.mpr (fun p hp => by
      rw [hlab p.2 (List.of_mem_zip hp).2]
      rfl)
  have hsum1 : ∀ g : K → K,
      (List.zipWith (· * ·)
        (target.map (fun t => if t = 1 then (1 : K) else 0)) (x.map g)).sum =
        (x.map g).sum := by
    intro g
    rw [zipWith_mask_sum, hfilter1, zip_map_fst x target hlen g]
  have hsum0 :
      (List.zipWith (· * ·)
        (target.map (fun t => if t = -1 then (1 : K) else 0))
        (x.map (fun s => lf (-s)))).sum = 0 :=
    zipWith_mask_sum_zero x target (-1) (fun s => lf (-s)) htg
  have hnp : max 1 ((target.map (fun t => if t = 1 then (1 : K) else 0)).sum)
      = (x.length : K) := by
    rw [sum_mask_eq_count]
    have hft : target.filter (fun t => t == 1) = target :=
      List.filter_eq_self.mpr (fun t ht => by
        rw [hlab t ht]
        rfl)
    rw [hft, ← hlen]
    exact max_eq_right (Nat.one_le_cast.mpr (List.length_pos.mpr hne))
  have hnu : max 1 ((target.map (fun t => if t = -1 then (1 : K) else 0)).sum)
      = 1 := by
    rw [sum_mask_eq_count]
    have hft : target.filter (fun t => t == -1) = [] :=
      List.filter_eq_nil_iff.mpr (fun t ht => by simpa using htg t ht)
    simp [hft]
  simp only [forwardCore, hsum1 lf, hsum1 (fun s => lf (-s)), hsum0, hnp,
    hnu, Bool.false_eq_true, if_false, zero_div, zero_sub, div_one]

/-- C6 counterexample: for the nnPU cc-variant with the default sigmoid
surrogate and prior `1/2`, at the all-positive batch `x = [0]`, the returned
loss is `1/4`, not the claimed
`π·mean(ℓ(scores)) − π·mean(ℓ(−scores)) = 0`: the non-negative correction
branch fires because the negative-risk estimate is `−1/4 < 0`. -/
theorem C6_counterexample :
    (forwardCore (K := ℝ) ⟨1/2, fun s => sigmoid (-s), 1, 0, true, false⟩
        [0] [1]).loss ≠
      1/2 * (([(0 : ℝ)].map (fun s => sigmoid (-s))).sum /
          (([(0 : ℝ)] : List ℝ).length : ℝ)) -
        1/2 * (([(0 : ℝ)].map (fun s => sigmoid (-(-s)))).sum /
          (([(0 : ℝ)] : List ℝ).length : ℝ)) := by
  have hs : sigmoid 0 = 1/2 := by
    norm_num [sigmoid, Real.exp_zero]
  norm_num [forwardCore, sigmoid, Real.exp_zero]

/-- C6 amended: on an all-positive batch the uPU cc-variant always returns
`π·mean(ℓ(scores)) − π·mean(ℓ(−scores))` (the unlabeled term contributing
`0` via the count floor), and the nnPU cc-variant returns the same value
exactly when the negative risk `−π·mean(ℓ(−scores))` is not below `−β`;
otherwise it returns the rewind value `γ·π·mean(ℓ(−scores))`. -/
theorem C6_all_positive_reduction {K : Type} [LinearOrderedField K]
    (pr gamma beta : K) (lf : K → K) (x : List K) (target : List ℤ)
    (hlen : x.length = target.length) (hlab : ∀ t ∈ target, t = 1)
    (hne : x ≠ []) :
    (forwardCore ⟨pr, lf, gamma, beta, false, false⟩ x target).loss =
        pr * ((x.map lf).sum / (x.length : K)) -
          pr * ((x.map (fun s => lf (-s))).sum / (x.length : K)) ∧
      (¬(-(pr * ((x.map (fun s => lf (-s))).sum / (x.length : K))) < -beta) →
        (forwardCore ⟨pr, lf, gamma, beta, true, false⟩ x target).loss =
          pr * ((x.map lf).sum / (x.length : K)) -
            pr * ((x.map (fun s => lf (-s))).sum / (x.length : K))) ∧
      (-(pr * ((x.map (fun s => lf (-s))).sum / (x.length : K))) < -beta →
        (forwardCore ⟨pr, lf, gamma, beta, true, false⟩ x target).loss =
          gamma * (pr * ((x.map (fun s => lf (-s))).sum / (x.length : K)))) := by
  have h0 := forwardCore_all_positive pr gamma beta lf false x target hlen
    hlab hne
  have h1 := forwardCore_all_positive pr gamma beta lf true x target hlen
    hlab hne
  have hbr : -(pr * ((x.map (fun s => lf (-s))).sum / (x.length : K))) =
      -(pr * (x.map (fun s => lf (-s))).sum / (x.length : K)) := by
    ring
  refine ⟨?_, fun h => ?_, fun h => ?_⟩
  · rw [h0]
    simp only [Bool.false_eq_true, false_and, if_false]
    ring
  · rw [h1]
    rw [hbr] at h
    simp only [true_and, if_neg h]
    ring
  · rw [h1]
    rw [hbr] at h
    simp only [true_and, if_pos h]
    ring

/-- Witness for the amended C6 over `ℚ`: a single positive example with the
constant surrogate `1`; the uPU loss is the claimed difference and the nnPU
loss is the rewind value. -/
theorem C6_all_positive_reduction_witness :
    (forwardCore (K := ℚ) ⟨1/2, fun _ => 1, 1, 0, false, false⟩ [3]
          [1]).loss =
        1/2 * ((([3] : List ℚ).map (fun _ => (1 : ℚ))).sum /
            ((([3] : List ℚ).length : ℚ))) -
          1/2 * ((([3] : List ℚ).map (fun _ => (1 : ℚ))).sum /
            ((([3] : List ℚ).length : ℚ))) ∧
      (forwardCore (K := ℚ) ⟨1/2, fun _ => 1, 1, 0, true, false⟩ [3]
          [1]).loss =
        1 * (1/2 * ((([3] : List ℚ).map (fun _ => (1 : ℚ))).sum /
          ((([3] : List ℚ).length : ℚ)))) := by
  have h := C6_all_positive_reduction (K := ℚ) (1/2) 1 0 (fun _ => 1) [3] [1]
    rfl (by decide) (by simp)
  exact ⟨h.1, h.2.2 (by norm_num)⟩

/-- The sigmoid odds ratio is the exponential of the logit. -/
lemma sigmoid_odds (s : ℝ) : sigmoid s / (1 - sigmoid s) = Real.exp s := by
  unfold sigmoid
  have he : 0 < Real.exp (-s) := Real.exp_pos _
  have h1 : 1 + Real.exp (-s) ≠ 0 := by linarith
  have h3 : Real.exp s * Real.exp (-s) = 1 := by
    rw [← Real.exp_add]
    simp
  have h2 : 1 - 1 / (1 + Real.exp (-s)) =
      Real.exp (-s) / (1 + Real.exp (-s)) := by
    field_simp
  rw [h2]
  field_simp
  linarith [h3]

/-- C3: the decision threshold is the product of the training prior odds and
the inverse new-prior odds; it is `1` on the diagonal, strictly decreasing in
the new prior, strictly increasing in the training prior, and equals `27/7`
at `(0.3, 0.1)` within `1e-9`. -/
theorem C3_threshold_formula :
    (∀ p q : ℝ, compute_threshold p q = (p / (1 - p)) * ((1 - q) / q)) ∧
      (∀ p : ℝ, 0 < p → p < 1 → compute_threshold p p = 1) ∧
      (∀ p q1 q2 : ℝ, 0 < p → p < 1 → 0 < q1 → q1 < q2 → q2 < 1 →
        compute_threshold p q2 < compute_threshold p q1) ∧
      (∀ p1 p2 q : ℝ, 0 < p1 → p1 < p2 → p2 < 1 → 0 < q → q < 1 →
        compute_threshold p1 q < compute_threshold p2 q) ∧
      |compute_threshold 0.3 0.1 - 27/7| ≤ 1e-9 := by
  refine ⟨fun p q => rfl, fun p hp0 hp1 => ?_, fun p q1 q2 hp0 hp1 hq1 hq12
    hq2 => ?_, fun p1 p2 q hp1 hp12 hp2 hq0 hq1 => ?_, ?_⟩
  · have h1 : p ≠ 0 := ne_of_gt hp0
    have h2 : (1 : ℝ) - p ≠ 0 := sub_ne_zero.mpr (ne_of_gt hp1)
    unfold compute_threshold
    field_simp
  · have hA : 0 < p / (1 - p) := div_pos hp0 (by linarith)
    have hodds : (1 - q2) / q2 < (1 - q1) / q1 := by
      rw [div_lt_div_iff (by linarith) hq1]
      nlinarith
    unfold compute_threshold
    exact mul_lt_mul_of_pos_left hodds hA
  · have hB : 0 < (1 - q) / q := div_pos (by linarith) hq0
    have hodds : p1 / (1 - p1) < p2 / (1 - p2) := by
      rw [div_lt_div_iff (by linarith) (by linarith)]
      nlinarith
    unfold compute_threshold
    exact mul_lt_mul_of_pos_right hodds hB
  · unfold compute_threshold
    norm_num

/-- Witness for C3 at concrete priors. -/
theorem C3_threshold_formula_witness :
    compute_threshold (1/2) (1/2) = 1 ∧
      compute_threshold (1/2) (1/2) < compute_threshold (1/2) (1/4) ∧
      compute_threshold (1/4) (1/4) < compute_threshold (1/2) (1/4) := by
  have h := C3_threshold_formula
  exact ⟨h.2.1 (1/2) (by norm_num) (by norm_num),
    h.2.2.1 (1/2) (1/4) (1/2) (by norm_num) (by norm_num) (by norm_num)
      (by norm_num) (by norm_num),
    h.2.2.2.1 (1/4) (1/2) (1/4) (by norm_num) (by norm_num) (by norm_num)
      (by norm_num) (by norm_num)⟩

/-- C9: with equal train and new priors the threshold is `1`, and
classification at threshold `1` on the sigmoid odds agrees with the
zero-threshold rule on the raw score: the odds are at least `1` exactly when
the score is nonnegative. -/
theorem C9_threshold_one_round_trip (p : ℝ) (hp0 : 0 < p) (hp1 : p < 1)
    (scores : List ℝ) :
    compute_threshold p p = 1 ∧
      classify scores (compute_threshold p p) = zeroRule scores ∧
      ∀ s : ℝ, 1 ≤ sigmoid s / (1 - sigmoid s) ↔ 0 ≤ s := by
  have hone : compute_threshold p p = 1 := by
    have h1 : p ≠ 0 := ne_of_gt hp0
    have h2 : (1 : ℝ) - p ≠ 0 := sub_ne_zero.mpr (ne_of_gt hp1)
    unfold compute_threshold
    field_simp
  refine ⟨hone, ?_, fun s => ?_⟩
  · rw [hone]
    unfold classify zeroRule
    refine List.map_congr_left (fun s _ => ?_)
    rw [sigmoid_odds]
    by_cases hs : 0 ≤ s
    · rw [if_neg (not_lt.mpr (Real.one_le_exp hs)), if_pos hs]
    · rw [if_pos (Real.exp_lt_one_iff.mpr (not_le.mp hs)), if_neg hs]
  · rw [sigmoid_odds]
    exact Real.one_le_exp_iff

/-- Witness for C9 at prior `1/2` and score vector `[0, 3, -2]`. -/
theorem C9_threshold_one_round_trip_witness :
    compute_threshold (1/2) (1/2) = 1 ∧
      classify [0, 3, -2] (compute_threshold (1/2) (1/2)) =
        zeroRule [0, 3, -2] :=
  ⟨(C9_threshold_one_round_trip (1/2) (by norm_num) (by norm_num)
      [0, 3, -2]).1,
    (C9_threshold_one_round_trip (1/2) (by norm_num) (by norm_num)
      [0, 3, -2]).2.1⟩

end NnPU
